import Mathlib

/-!
Shallow embedding of `xirl/xirl/evaluators/base.py`: the `EvaluatorOutput`
dataclass (fields `scalar`, `image`, `video`, each optional and either a
single value or a list), its static `_assert_same_attrs` and `merge`
operations, its `log` operation against an opaque logging sink, and the
abstract `Evaluator` base class storing the `inter_class` flag.

Python values reaching these functions are modelled by the inductive
`PyVal`: `none` is Python `None`, `num` a Python float (modelled exactly as
a rational), `arr` an opaque numpy array (identified by a tag, since the
code never inspects array contents for images/videos), and `list` a Python
list.  `merge` and the empty-list indexing are fallible, so they return
`Except`; the `assert` in `_assert_same_attrs` is modelled as the
`inconsistentOutput` error, and indexing `list_out[0]` on an empty list as
`indexError`.  The side effects of `log` on the sink are reified as the trace of
`LogCall`s it emits, and the in-place mutation of `self.scalar` is reified
by returning the updated record alongside the trace.
-/

namespace XirlEval

/-- A dynamically typed Python value as used by `base.py`: `None`, a float
(exact rational), an opaque numpy array, or a Python list. -/
inductive PyVal where
  | none : PyVal
  | num : ℚ → PyVal
  | arr : ℕ → PyVal
  | list : List PyVal → PyVal

/-- Python `x is not None` on a `PyVal`. -/
def pyIsNotNone : PyVal → Bool
  | .none => false
  | _ => true

/-- The `EvaluatorOutput` dataclass: three fields, all defaulting to
`None` (`base.py` lines 27-36). -/
structure EvaluatorOutput where
  scalar : PyVal := .none
  image : PyVal := .none
  video : PyVal := .none

instance : Inhabited EvaluatorOutput := ⟨{}⟩

/-- Errors `merge` can signal: the failed `assert` in `_assert_same_attrs`
(line 48), or an `IndexError` from `list_out[0]` on an empty list. -/
inductive MergeError where
  | inconsistentOutput : MergeError
  | indexError : MergeError
  deriving DecidableEq, Repr

/-- The inner `_not_none` helper of `_assert_same_attrs` (lines 42-43):
`[getattr(o, a) is not None for a in ["scalar", "image", "video"]]`. -/
def not_none (o : EvaluatorOutput) : List Bool :=
  [pyIsNotNone o.scalar, pyIsNotNone o.image, pyIsNotNone o.video]

/-- Embeds `EvaluatorOutput._assert_same_attrs` (lines 38-48): reads
`list_out[0]` (an `IndexError` when the list is empty), then asserts
`np.array_equal(expected, _not_none(o))` for every later element.  On
equal-length boolean lists `np.array_equal` is exactly list equality. -/
def assert_same_attrs (list_out : List EvaluatorOutput) :
    Except MergeError Unit :=
  match list_out with
  | [] => .error .indexError
  | o0 :: rest =>
    if rest.all (fun o => not_none o == not_none o0) then .ok ()
    else .error .inconsistentOutput

/-- Embeds `EvaluatorOutput.merge` (lines 50-68): first `_assert_same_attrs`,
then for each attribute, if it is not `None` on `list_out[0]`, collect it
from every element in order into a Python list; otherwise leave it `None`. -/
def merge (list_out : List EvaluatorOutput) :
    Except MergeError EvaluatorOutput :=
  match assert_same_attrs list_out with
  | .error e => .error e
  | .ok _ =>
    match list_out with
    | [] => .error .indexError
    | o0 :: rest =>
      .ok { scalar :=
              if pyIsNotNone o0.scalar then
                PyVal.list ((o0 :: rest).map (·.scalar))
              else .none
          , image :=
              if pyIsNotNone o0.image then
                PyVal.list ((o0 :: rest).map (·.image))
              else .none
          , video :=
              if pyIsNotNone o0.video then
                PyVal.list ((o0 :: rest).map (·.video))
              else .none }

/-- One invocation of the logging sink: `log_scalar`, `log_image` or
`log_video`, with the payload, `global_step`, tag and namespace arguments
in the order the source passes them. -/
inductive LogCall where
  | scalar (value : PyVal) (globalStep : ℕ) (tag : String) (pfx : String)
  | image (value : PyVal) (globalStep : ℕ) (tag : String) (pfx : String)
  | video (value : PyVal) (globalStep : ℕ) (tag : String) (pfx : String)

/-- Error from `log`: `np.mean` applied to a value without well-defined
numeric contents (non-numeric leaves, or an empty collection whose mean
would be NaN). -/
inductive LogError where
  | meanError : LogError
  deriving DecidableEq, Repr

/-- Flatten the numeric leaves of a `PyVal` the way numpy views a nested
list as an array: a float is one entry, a list concatenates the entries of
its elements, anything else has no well-defined numeric contents. -/
def pyFlatten : PyVal → Option (List ℚ)
  | .num q => some [q]
  | .list [] => some []
  | .list (v :: vs) => do
      let a ← pyFlatten v
      let b ← pyFlatten (.list vs)
      pure (a ++ b)
  | _ => Option.none

/-- Models `np.mean` on a Python list: the equally weighted arithmetic mean of
all numeric entries; undefined (NaN / numpy error) when the contents are
not numeric or there are no entries. -/
def npMean (l : List PyVal) : Option ℚ :=
  match pyFlatten (.list l) with
  | some qs => if qs.length = 0 then Option.none else some (qs.sum / qs.length)
  | Option.none => Option.none

/-- Lines 73-76 of `log`: if `self.scalar is not None`, replace a list by
`np.mean(self.scalar)` and emit one `log_scalar` call with the (possibly
reduced) value; returns the new value of the `scalar` field and the calls
emitted. -/
def logScalarStep (v : PyVal) (globalStep : ℕ) (name pfx : String) :
    Except LogError (PyVal × List LogCall) :=
  match v with
  | .none => .ok (.none, [])
  | .list l =>
    match npMean l with
    | some m => .ok (.num m, [.scalar (.num m) globalStep name pfx])
    | _ => .error .meanError
  | w => .ok (w, [.scalar w globalStep name pfx])

/-- Lines 77-82 of `log`: if `self.image is not None`, a Python list fans
out to one `log_image` call per element, in order, with the zero-based
index appended to the tag (`name + f"_{i}"`); any other value is logged
once under the unmodified tag. -/
def imageFanCalls (v : PyVal) (globalStep : ℕ) (name pfx : String) :
    List LogCall :=
  match v with
  | .none => []
  | .list l =>
    l.enum.map (fun p => .image p.2 globalStep (name ++ "_" ++ toString p.1) pfx)
  | w => [.image w globalStep name pfx]

/-- Lines 83-88 of `log`: the same fan-out for `self.video` with
`log_video`, independently of `image`. -/
def videoFanCalls (v : PyVal) (globalStep : ℕ) (name pfx : String) :
    List LogCall :=
  match v with
  | .none => []
  | .list l =>
    l.enum.map (fun p => .video p.2 globalStep (name ++ "_" ++ toString p.1) pfx)
  | w => [.video w globalStep name pfx]

/-- Embeds `EvaluatorOutput.log` (lines 70-88).  The sink is opaque, so the
effect is the ordered trace of `LogCall`s; the record after the call is
returned as well, because line 75 mutates `self.scalar` in place. -/
def log (self : EvaluatorOutput) (globalStep : ℕ) (name pfx : String) :
    Except LogError (EvaluatorOutput × List LogCall) :=
  match logScalarStep self.scalar globalStep name pfx with
  | .error e => .error e
  | .ok (newScalar, sCalls) =>
    .ok ({ self with scalar := newScalar },
         sCalls ++ imageFanCalls self.image globalStep name pfx
                ++ videoFanCalls self.video globalStep name pfx)

/-- Whether a call is a `log_scalar` invocation. -/
def isScalarCall : LogCall → Bool
  | .scalar .. => true
  | _ => false

/-- Whether a call is a `log_image` invocation. -/
def isImageCall : LogCall → Bool
  | .image .. => true
  | _ => false

/-- Whether a call is a `log_video` invocation. -/
def isVideoCall : LogCall → Bool
  | .video .. => true
  | _ => false

/-- The trace of sink calls a `log` invocation emits (empty when `log`
fails before emitting anything can be observed as a completed call list). -/
def logCalls (o : EvaluatorOutput) (globalStep : ℕ) (name pfx : String) :
    List LogCall :=
  match log o globalStep name pfx with
  | .ok (_, cs) => cs
  | .error _ => []

/-- The record as left behind by a `log` invocation (unchanged when `log`
fails). -/
def logRecord (o : EvaluatorOutput) (globalStep : ℕ) (name pfx : String) :
    EvaluatorOutput :=
  match log o globalStep name pfx with
  | .ok (o', _) => o'
  | .error _ => o

/-- Whether a `log` invocation completes without error. -/
def logOk (o : EvaluatorOutput) (globalStep : ℕ) (name pfx : String) : Bool :=
  match log o globalStep name pfx with
  | .ok _ => true
  | .error _ => false

/-- Whether the scalar branch of `log` completes: `self.scalar` is not a
list, or its `np.mean` is well defined. -/
def scalarLoggable (o : EvaluatorOutput) : Bool :=
  match o.scalar with
  | .list l => (npMean l).isSome
  | _ => true

/-- The abstract `Evaluator` base class (lines 91-98): the only state its
constructor establishes is the `inter_class` flag. -/
structure Evaluator where
  inter_class : Bool
  deriving DecidableEq, Repr

/-- Embeds `Evaluator.__init__` (lines 97-98): `self.inter_class = inter_class`,
and nothing else. -/
def Evaluator.init (b : Bool) : Evaluator := ⟨b⟩

/-! Helper lemmas -/

/-- Closed form of `merge` on a non-empty list whose elements all share the
presence pattern of the head. -/
theorem merge_cons_eq (o0 : EvaluatorOutput) (rest : List EvaluatorOutput)
    (h : ∀ o ∈ rest, not_none o = not_none o0) :
    merge (o0 :: rest) =
      .ok { scalar :=
              if pyIsNotNone o0.scalar then
                PyVal.list ((o0 :: rest).map (·.scalar))
              else .none
          , image :=
              if pyIsNotNone o0.image then
                PyVal.list ((o0 :: rest).map (·.image))
              else .none
          , video :=
              if pyIsNotNone o0.video then
                PyVal.list ((o0 :: rest).map (·.video))
              else .none } := by
  have hall : rest.all (fun o => not_none o == not_none o0) = true := by
    rw [List.all_eq_true]
    intro o ho
    exact beq_iff_eq.mpr (h o ho)
  simp only [merge, assert_same_attrs, hall, if_true]

/-- Value of `getD` on a mapped list, below the length. -/
theorem getD_map_of_lt {α β : Type} (f : α → β) (l : List α) (i : ℕ)
    (d : α) (d' : β) (hi : i < l.length) :
    (l.map f).getD i d' = f (l.getD i d) := by
  rw [List.getD_eq_getElem?_getD, List.getD_eq_getElem?_getD,
      List.getElem?_map f l i, List.getElem?_eq_getElem hi]
  rfl

/-- An entry read with `getD` below the length is a member of the list. -/
theorem getD_mem_of_lt {α : Type} (l : List α) (i : ℕ) (d : α)
    (hi : i < l.length) : l.getD i d ∈ l := by
  rw [List.getD_eq_getElem?_getD, List.getElem?_eq_getElem hi]
  exact List.getElem_mem hi

/-! Claims -/

/-- C1: for every non-empty list of `EvaluatorOutput` all sharing the same
presence pattern over (scalar, image, video), `merge` returns an output
whose present attributes are ordered sequences of the per-element values
in input order, of length equal to the input length, and whose absent
attributes stay absent. -/
theorem merge_uniform_presence (o0 : EvaluatorOutput)
    (rest : List EvaluatorOutput)
    (h : ∀ o ∈ rest, not_none o = not_none o0) :
    merge (o0 :: rest) =
      .ok { scalar :=
              if pyIsNotNone o0.scalar then
                PyVal.list ((o0 :: rest).map (·.scalar))
              else .none
          , image :=
              if pyIsNotNone o0.image then
                PyVal.list ((o0 :: rest).map (·.image))
              else .none
          , video :=
              if pyIsNotNone o0.video then
                PyVal.list ((o0 :: rest).map (·.video))
              else .none } ∧
    ((o0 :: rest).map (·.scalar)).length = (o0 :: rest).length ∧
    ((o0 :: rest).map (·.image)).length = (o0 :: rest).length ∧
    ((o0 :: rest).map (·.video)).length = (o0 :: rest).length :=
  ⟨merge_cons_eq o0 rest h, List.length_map _ _, List.length_map _ _,
   List.length_map _ _⟩

/-- Witness for C1, the example given by the spec: merging
`[EvaluatorOutput(scalar=0.2), EvaluatorOutput(scalar=0.8)]` yields
`EvaluatorOutput(scalar=[0.2, 0.8])`. -/
theorem merge_uniform_presence_witness :
    merge [{ scalar := .num (1/5) }, { scalar := .num (4/5) }] =
      .ok { scalar := PyVal.list [.num (1/5), .num (4/5)], image := .none,
            video := .none } := by
  have h := merge_uniform_presence { scalar := .num (1/5) }
    [{ scalar := .num (4/5) }] (by intro o ho; simp at ho; subst ho; rfl)
  simpa [pyIsNotNone] using h.1

/-- C2: whenever two elements of the input list have different presence
patterns, `merge` signals `InconsistentOutputError` (the failed assertion
in `_assert_same_attrs`) and returns no result at all. -/
theorem merge_mixed_presence (l : List EvaluatorOutput)
    (a b : EvaluatorOutput) (ha : a ∈ l) (hb : b ∈ l)
    (hab : not_none a ≠ not_none b) :
    merge l = .error .inconsistentOutput := by
  match l with
  | [] => cases ha
  | o0 :: rest =>
    have hex : ∃ o ∈ rest, not_none o ≠ not_none o0 := by
      by_cases hA : not_none a = not_none o0
      · have hBne : not_none b ≠ not_none o0 := fun hB => hab (hA.trans hB.symm)
        have hbrest : b ∈ rest := by
          rcases List.mem_cons.mp hb with rfl | hbr
          · exact absurd rfl hBne
          · exact hbr
        exact ⟨b, hbrest, hBne⟩
      · have harest : a ∈ rest := by
          rcases List.mem_cons.mp ha with rfl | har
          · exact absurd rfl hA
          · exact har
        exact ⟨a, harest, hA⟩
    obtain ⟨o, ho, hone⟩ := hex
    have hall : rest.all (fun o => not_none o == not_none o0) = false := by
      cases hv : rest.all (fun o => not_none o == not_none o0)
      · rfl
      · rw [List.all_eq_true] at hv
        exact absurd (beq_iff_eq.mp (hv o ho)) hone
    simp only [merge, assert_same_attrs, hall, Bool.false_eq_true, if_false]

/-- Witness for C2, the example given by the spec: one element has
`scalar=0.5, image=imgA`, the other only `scalar=0.9`. -/
theorem merge_mixed_presence_witness :
    merge [{ scalar := .num (1/2), image := .arr 0 }, { scalar := .num (9/10) }]
      = .error .inconsistentOutput :=
  merge_mixed_presence _ { scalar := .num (1/2), image := .arr 0 }
    { scalar := .num (9/10) } (List.mem_cons_self _ _)
    (by simp) (by intro h; simp [not_none, pyIsNotNone] at h)

/-- C5: on a non-empty input list every index access `merge` performs is
in bounds, so the `IndexError` branch of the embedded indexing is
unreachable; on the empty list `merge` fails with exactly that indexing
error instead of returning an `EvaluatorOutput`. -/
theorem merge_index_safety :
    (∀ l : List EvaluatorOutput, l ≠ [] → merge l ≠ .error .indexError) ∧
    merge ([] : List EvaluatorOutput) = .error .indexError := by
  constructor
  · intro l hl
    match l, hl with
    | o0 :: rest, _ =>
      cases hall : rest.all (fun o => not_none o == not_none o0)
      · simp only [merge, assert_same_attrs, hall, Bool.false_eq_true,
          if_false]
        intro hcontra
        exact MergeError.noConfusion (Except.error.inj hcontra)
      · simp only [merge, assert_same_attrs, hall, if_true]
        intro hcontra
        exact Except.noConfusion hcontra
  · rfl

/-- Witness for C5: a singleton list does not hit the indexing error, the
empty list does. -/
theorem merge_index_safety_witness :
    merge [({} : EvaluatorOutput)] ≠ .error .indexError ∧
    merge ([] : List EvaluatorOutput) = .error .indexError :=
  ⟨merge_index_safety.1 [({} : EvaluatorOutput)] (by simp),
   merge_index_safety.2⟩

/-- C6: `merge` on a singleton list wraps each present attribute of the
single element in a length-1 sequence holding the value of that element, and
keeps absent attributes absent, with no special-casing of size 1. -/
theorem merge_singleton (o : EvaluatorOutput) :
    merge [o] =
      .ok { scalar :=
              if pyIsNotNone o.scalar then PyVal.list [o.scalar] else .none
          , image :=
              if pyIsNotNone o.image then PyVal.list [o.image] else .none
          , video :=
              if pyIsNotNone o.video then PyVal.list [o.video] else .none } := by
  simpa using merge_cons_eq o [] (by simp)

/-- All presence-pattern components agree when the patterns agree. -/
theorem not_none_components {o o' : EvaluatorOutput}
    (h : not_none o = not_none o') :
    pyIsNotNone o.scalar = pyIsNotNone o'.scalar ∧
    pyIsNotNone o.image = pyIsNotNone o'.image ∧
    pyIsNotNone o.video = pyIsNotNone o'.video := by
  simpa [not_none] using h

/-- Under a uniform presence hypothesis, every element of the whole list
shares the pattern of the head. -/
theorem presence_of_mem (o0 : EvaluatorOutput) (rest : List EvaluatorOutput)
    (h : ∀ o ∈ rest, not_none o = not_none o0) (o : EvaluatorOutput)
    (ho : o ∈ o0 :: rest) : not_none o = not_none o0 := by
  rcases List.mem_cons.mp ho with rfl | hr
  · rfl
  · exact h o hr

/-- C7: `merge` performs no flattening: when the attribute value of the
element at position `i` is itself already a Python list, the merged
attribute is a sequence of length equal to the number of inputs whose
entry at position `i` is exactly that list, nested as-is. -/
theorem merge_no_flattening (o0 : EvaluatorOutput)
    (rest : List EvaluatorOutput)
    (h : ∀ o ∈ rest, not_none o = not_none o0) :
    ∃ r, merge (o0 :: rest) = .ok r ∧
      (∀ (i : ℕ) (s : List PyVal), i < (o0 :: rest).length →
        ((o0 :: rest).getD i default).scalar = .list s →
        ∃ m : List PyVal, r.scalar = .list m ∧
          m.length = (o0 :: rest).length ∧ m.getD i .none = .list s) ∧
      (∀ (i : ℕ) (s : List PyVal), i < (o0 :: rest).length →
        ((o0 :: rest).getD i default).image = .list s →
        ∃ m : List PyVal, r.image = .list m ∧
          m.length = (o0 :: rest).length ∧ m.getD i .none = .list s) ∧
      (∀ (i : ℕ) (s : List PyVal), i < (o0 :: rest).length →
        ((o0 :: rest).getD i default).video = .list s →
        ∃ m : List PyVal, r.video = .list m ∧
          m.length = (o0 :: rest).length ∧ m.getD i .none = .list s) := by
  refine ⟨_, merge_cons_eq o0 rest h, ?_, ?_, ?_⟩
  · intro i s hi hs
    have hpres := presence_of_mem o0 rest h _
      (getD_mem_of_lt (o0 :: rest) i default hi)
    have h0 : pyIsNotNone o0.scalar = true := by
      rw [← (not_none_components hpres).1, hs]
      rfl
    refine ⟨(o0 :: rest).map (·.scalar), ?_, List.length_map _ _, ?_⟩
    · show (if pyIsNotNone o0.scalar then
          PyVal.list ((o0 :: rest).map (·.scalar)) else .none) = _
      rw [h0, if_pos rfl]
    · rw [getD_map_of_lt (·.scalar) (o0 :: rest) i default .none hi, hs]
  · intro i s hi hs
    have hpres := presence_of_mem o0 rest h _
      (getD_mem_of_lt (o0 :: rest) i default hi)
    have h0 : pyIsNotNone o0.image = true := by
      rw [← (not_none_components hpres).2.1, hs]
      rfl
    refine ⟨(o0 :: rest).map (·.image), ?_, List.length_map _ _, ?_⟩
    · show (if pyIsNotNone o0.image then
          PyVal.list ((o0 :: rest).map (·.image)) else .none) = _
      rw [h0, if_pos rfl]
    · rw [getD_map_of_lt (·.image) (o0 :: rest) i default .none hi, hs]
  · intro i s hi hs
    have hpres := presence_of_mem o0 rest h _
      (getD_mem_of_lt (o0 :: rest) i default hi)
    have h0 : pyIsNotNone o0.video = true := by
      rw [← (not_none_components hpres).2.2, hs]
      rfl
    refine ⟨(o0 :: rest).map (·.video), ?_, List.length_map _ _, ?_⟩
    · show (if pyIsNotNone o0.video then
          PyVal.list ((o0 :: rest).map (·.video)) else .none) = _
      rw [h0, if_pos rfl]
    · rw [getD_map_of_lt (·.video) (o0 :: rest) i default .none hi, hs]

/-- Witness for C7: merging an output whose scalar is already the list
`[1, 2]` with one whose scalar is `3` keeps the inner list nested at
position 0 of a length-2 merged sequence. -/
theorem merge_no_flattening_witness :
    ∃ r, merge [{ scalar := .list [.num 1, .num 2] }, { scalar := .num 3 }]
        = .ok r ∧
      ∃ m : List PyVal, r.scalar = .list m ∧ m.length = 2 ∧
        m.getD 0 .none = .list [.num 1, .num 2] := by
  obtain ⟨r, hr, hsc, -, -⟩ :=
    merge_no_flattening { scalar := .list [.num 1, .num 2] }
      [{ scalar := .num 3 }] (by intro o ho; simp at ho; subst ho; rfl)
  obtain ⟨m, h1, h2, h3⟩ := hsc 0 [.num 1, .num 2] (by simp) rfl
  exact ⟨r, hr, m, h1, by simpa using h2, h3⟩

/-! Helper lemmas about `log` -/

/-- Applying `pyFlatten` to a plain list of floats yields those floats. -/
theorem pyFlatten_map_num (qs : List ℚ) :
    pyFlatten (.list (qs.map PyVal.num)) = some qs := by
  induction qs with
  | nil => simp [pyFlatten]
  | cons q qs ih => simp [pyFlatten, ih]

/-- Applying `np.mean` to a non-empty plain list of floats gives their
equally weighted arithmetic mean. -/
theorem npMean_map_num (qs : List ℚ) (h : qs ≠ []) :
    npMean (qs.map PyVal.num) = some (qs.sum / qs.length) := by
  have hlen : qs.length ≠ 0 := fun hc => h (List.length_eq_zero.mp hc)
  simp [npMean, pyFlatten_map_num qs, hlen]

theorem logScalarStep_none (gs : ℕ) (n p : String) :
    logScalarStep .none gs n p = .ok (.none, []) := rfl

theorem logScalarStep_num (q : ℚ) (gs : ℕ) (n p : String) :
    logScalarStep (.num q) gs n p
      = .ok (.num q, [.scalar (.num q) gs n p]) := rfl

theorem logScalarStep_arr (k : ℕ) (gs : ℕ) (n p : String) :
    logScalarStep (.arr k) gs n p
      = .ok (.arr k, [.scalar (.arr k) gs n p]) := rfl

theorem logScalarStep_list_of_mean (l : List PyVal) (m : ℚ)
    (h : npMean l = some m) (gs : ℕ) (n p : String) :
    logScalarStep (.list l) gs n p
      = .ok (.num m, [.scalar (.num m) gs n p]) := by
  simp [logScalarStep, h]

/-- Value of `log` in terms of the result of its scalar phase. -/
theorem log_eq (o : EvaluatorOutput) (gs : ℕ) (n p : String) (w : PyVal)
    (sc : List LogCall) (h : logScalarStep o.scalar gs n p = .ok (w, sc)) :
    log o gs n p =
      .ok ({ o with scalar := w },
           sc ++ imageFanCalls o.image gs n p ++ videoFanCalls o.video gs n p) := by
  simp [log, h]

/-- A failure of the scalar phase propagates out of `log`. -/
theorem log_eq_error (o : EvaluatorOutput) (gs : ℕ) (n p : String)
    (e : LogError) (h : logScalarStep o.scalar gs n p = .error e) :
    log o gs n p = .error e := by
  simp [log, h]

/-- When the scalar phase succeeds it emits no image or video calls. -/
theorem logScalarStep_ok_of_loggable (o : EvaluatorOutput) (gs : ℕ)
    (n p : String) (hs : scalarLoggable o = true) :
    ∃ w sc, logScalarStep o.scalar gs n p = .ok (w, sc) ∧
      sc.filter isImageCall = [] ∧ sc.filter isVideoCall = [] ∧
      sc.filter isScalarCall = sc := by
  cases hv : o.scalar with
  | none => exact ⟨.none, [], rfl, rfl, rfl, rfl⟩
  | num q => exact ⟨_, _, rfl, rfl, rfl, rfl⟩
  | arr k => exact ⟨_, _, rfl, rfl, rfl, rfl⟩
  | list l =>
    have hms : (npMean l).isSome := by simpa [scalarLoggable, hv] using hs
    obtain ⟨m, hm⟩ := Option.isSome_iff_exists.mp hms
    exact ⟨_, _, logScalarStep_list_of_mean l m hm gs n p, rfl, rfl, rfl⟩

theorem imageFan_filter_scalar (v : PyVal) (gs : ℕ) (n p : String) :
    (imageFanCalls v gs n p).filter isScalarCall = [] := by
  cases v with
  | list l =>
    refine List.filter_eq_nil_iff.mpr ?_
    intro c hc
    obtain ⟨q, -, rfl⟩ := List.mem_map.mp hc
    simp [isScalarCall]
  | none => rfl
  | num q => rfl
  | arr k => rfl

theorem imageFan_filter_video (v : PyVal) (gs : ℕ) (n p : String) :
    (imageFanCalls v gs n p).filter isVideoCall = [] := by
  cases v with
  | list l =>
    refine List.filter_eq_nil_iff.mpr ?_
    intro c hc
    obtain ⟨q, -, rfl⟩ := List.mem_map.mp hc
    simp [isVideoCall]
  | none => rfl
  | num q => rfl
  | arr k => rfl

theorem imageFan_filter_image (v : PyVal) (gs : ℕ) (n p : String) :
    (imageFanCalls v gs n p).filter isImageCall = imageFanCalls v gs n p := by
  cases v with
  | list l =>
    refine List.filter_eq_self.mpr ?_
    intro c hc
    obtain ⟨q, -, rfl⟩ := List.mem_map.mp hc
    rfl
  | none => rfl
  | num q => rfl
  | arr k => rfl

theorem videoFan_filter_scalar (v : PyVal) (gs : ℕ) (n p : String) :
    (videoFanCalls v gs n p).filter isScalarCall = [] := by
  cases v with
  | list l =>
    refine List.filter_eq_nil_iff.mpr ?_
    intro c hc
    obtain ⟨q, -, rfl⟩ := List.mem_map.mp hc
    simp [isScalarCall]
  | none => rfl
  | num q => rfl
  | arr k => rfl

theorem videoFan_filter_image (v : PyVal) (gs : ℕ) (n p : String) :
    (videoFanCalls v gs n p).filter isImageCall = [] := by
  cases v with
  | list l =>
    refine List.filter_eq_nil_iff.mpr ?_
    intro c hc
    obtain ⟨q, -, rfl⟩ := List.mem_map.mp hc
    simp [isImageCall]
  | none => rfl
  | num q => rfl
  | arr k => rfl

theorem videoFan_filter_video (v : PyVal) (gs : ℕ) (n p : String) :
    (videoFanCalls v gs n p).filter isVideoCall = videoFanCalls v gs n p := by
  cases v with
  | list l =>
    refine List.filter_eq_self.mpr ?_
    intro c hc
    obtain ⟨q, -, rfl⟩ := List.mem_map.mp hc
    rfl
  | none => rfl
  | num q => rfl
  | arr k => rfl

/-- Value of `getD` through `enum`-then-`map`, below the length. -/
theorem enum_map_getD {α β : Type} (l : List α) (f : ℕ × α → β) (i : ℕ)
    (d : β) (d2 : α) (hi : i < l.length) :
    (l.enum.map f).getD i d = f (i, l.getD i d2) := by
  rw [List.getD_eq_getElem?_getD, List.getElem?_map f _ i,
      List.getElem?_enum, List.getElem?_eq_getElem hi,
      List.getD_eq_getElem?_getD, List.getElem?_eq_getElem hi]
  rfl

/-- C3: when `scalar` is present, `log` emits exactly one `log_scalar`
call under the given `(name, prefix, global_step)`; a list is reduced to
its equally weighted arithmetic mean first, a single value is passed
unchanged. -/
theorem log_scalar_once (o : EvaluatorOutput) (gs : ℕ) (name pfx : String) :
    (∀ q : ℚ, o.scalar = .num q →
      logOk o gs name pfx = true ∧
      (logCalls o gs name pfx).filter isScalarCall
        = [.scalar (.num q) gs name pfx]) ∧
    (∀ qs : List ℚ, qs ≠ [] → o.scalar = .list (qs.map PyVal.num) →
      logOk o gs name pfx = true ∧
      (logCalls o gs name pfx).filter isScalarCall
        = [.scalar (.num (qs.sum / qs.length)) gs name pfx]) := by
  constructor
  · intro q hq
    have hstep : logScalarStep o.scalar gs name pfx
        = .ok (.num q, [.scalar (.num q) gs name pfx]) := by
      rw [hq]
      exact logScalarStep_num q gs name pfx
    have hlog := log_eq o gs name pfx _ _ hstep
    refine ⟨by simp [logOk, hlog], ?_⟩
    simp [logCalls, hlog, List.filter_append, imageFan_filter_scalar,
      videoFan_filter_scalar, isScalarCall]
  · intro qs hne hq
    have hstep : logScalarStep o.scalar gs name pfx
        = .ok (.num (qs.sum / qs.length),
               [.scalar (.num (qs.sum / qs.length)) gs name pfx]) := by
      rw [hq]
      exact logScalarStep_list_of_mean _ _ (npMean_map_num qs hne) gs name pfx
    have hlog := log_eq o gs name pfx _ _ hstep
    refine ⟨by simp [logOk, hlog], ?_⟩
    simp [logCalls, hlog, List.filter_append, imageFan_filter_scalar,
      videoFan_filter_scalar, isScalarCall]

/-- Witness for C3, the example given by the spec: `scalar=[0.2, 0.8]` logs the
single value `0.5`. -/
theorem log_scalar_once_witness :
    logOk { scalar := .list [.num (1/5), .num (4/5)] } 7 "n" "p" = true ∧
    (logCalls { scalar := .list [.num (1/5), .num (4/5)] } 7 "n" "p").filter
        isScalarCall
      = [.scalar (.num (1/2)) 7 "n" "p"] := by
  have h := (log_scalar_once { scalar := .list [.num (1/5), .num (4/5)] }
    7 "n" "p").2 [1/5, 4/5] (by simp) rfl
  refine ⟨h.1, ?_⟩
  rw [h.2]
  norm_num

/-- C4: a list-valued `image` (resp. `video`) fans out to one sink call
per element in order, the i-th under the tag `name_i`; a single array is
logged exactly once under the unmodified tag.  The two attributes behave
identically and independently. -/
theorem log_image_video_fanout (o : EvaluatorOutput) (gs : ℕ)
    (name pfx : String) (hs : scalarLoggable o = true) :
    logOk o gs name pfx = true ∧
    (∀ l : List PyVal, o.image = .list l →
      ((logCalls o gs name pfx).filter isImageCall).length = l.length ∧
      ∀ i : ℕ, i < l.length →
        ((logCalls o gs name pfx).filter isImageCall).getD i
            (.image .none 0 "" "")
          = .image (l.getD i .none) gs (name ++ "_" ++ toString i) pfx) ∧
    (∀ k : ℕ, o.image = .arr k →
      (logCalls o gs name pfx).filter isImageCall
        = [.image (.arr k) gs name pfx]) ∧
    (∀ l : List PyVal, o.video = .list l →
      ((logCalls o gs name pfx).filter isVideoCall).length = l.length ∧
      ∀ i : ℕ, i < l.length →
        ((logCalls o gs name pfx).filter isVideoCall).getD i
            (.video .none 0 "" "")
          = .video (l.getD i .none) gs (name ++ "_" ++ toString i) pfx) ∧
    (∀ k : ℕ, o.video = .arr k →
      (logCalls o gs name pfx).filter isVideoCall
        = [.video (.arr k) gs name pfx]) := by
  obtain ⟨w, sc, hstep, hfi, hfv, -⟩ :=
    logScalarStep_ok_of_loggable o gs name pfx hs
  have hlog := log_eq o gs name pfx _ _ hstep
  have hcalls : logCalls o gs name pfx
      = sc ++ imageFanCalls o.image gs name pfx
           ++ videoFanCalls o.video gs name pfx := by
    simp [logCalls, hlog]
  refine ⟨by simp [logOk, hlog], ?_, ?_, ?_, ?_⟩
  · intro l hl
    have hfilter : (logCalls o gs name pfx).filter isImageCall
        = l.enum.map
            (fun q => .image q.2 gs (name ++ "_" ++ toString q.1) pfx) := by
      rw [hcalls, List.filter_append, List.filter_append, hfi,
        videoFan_filter_image, imageFan_filter_image, hl]
      simp [imageFanCalls]
    refine ⟨by rw [hfilter]; simp [List.enum_length], ?_⟩
    intro i hi
    rw [hfilter, enum_map_getD l _ i _ .none hi]
  · intro k hk
    rw [hcalls, List.filter_append, List.filter_append, hfi,
      videoFan_filter_image, imageFan_filter_image, hk]
    simp [imageFanCalls]
  · intro l hl
    have hfilter : (logCalls o gs name pfx).filter isVideoCall
        = l.enum.map
            (fun q => .video q.2 gs (name ++ "_" ++ toString q.1) pfx) := by
      rw [hcalls, List.filter_append, List.filter_append, hfv,
        imageFan_filter_video, videoFan_filter_video, hl]
      simp [videoFanCalls]
    refine ⟨by rw [hfilter]; simp [List.enum_length], ?_⟩
    intro i hi
    rw [hfilter, enum_map_getD l _ i _ .none hi]
  · intro k hk
    rw [hcalls, List.filter_append, List.filter_append, hfv,
      imageFan_filter_video, videoFan_filter_video, hk]
    simp [videoFanCalls]

/-- Witness for C4: `image=[imgA, imgB]` produces exactly two image calls
tagged `nm_0` and `nm_1` in order, and a single-array `video` produces
one call under the unmodified tag. -/
theorem log_image_video_fanout_witness :
    ((logCalls { image := .list [.arr 0, .arr 1], video := .arr 7 }
        3 "nm" "pf").filter isImageCall).length = 2 ∧
    ((logCalls { image := .list [.arr 0, .arr 1], video := .arr 7 }
        3 "nm" "pf").filter isImageCall).getD 0 (.image .none 0 "" "")
      = .image (.arr 0) 3 "nm_0" "pf" ∧
    ((logCalls { image := .list [.arr 0, .arr 1], video := .arr 7 }
        3 "nm" "pf").filter isImageCall).getD 1 (.image .none 0 "" "")
      = .image (.arr 1) 3 "nm_1" "pf" ∧
    (logCalls { image := .list [.arr 0, .arr 1], video := .arr 7 }
        3 "nm" "pf").filter isVideoCall
      = [.video (.arr 7) 3 "nm" "pf"] := by
  have h := log_image_video_fanout
    { image := .list [.arr 0, .arr 1], video := .arr 7 } 3 "nm" "pf" rfl
  obtain ⟨-, himg, -, -, hvid⟩ := h
  obtain ⟨hlen, hix⟩ := himg [.arr 0, .arr 1] rfl
  exact ⟨hlen, hix 0 (by simp), hix 1 (by simp), hvid 7 rfl⟩

/-- C8: `log` on a record with all three attributes absent performs zero
sink calls and leaves the record as it was. -/
theorem log_all_absent (gs : ℕ) (name pfx : String) :
    log { scalar := .none, image := .none, video := .none } gs name pfx
      = .ok ({ scalar := .none, image := .none, video := .none }, []) := rfl

/-- C9: a completed `log` call mutates only the `scalar` attribute of the
record, replacing a list by its equally weighted arithmetic mean and
leaving any non-list value, and the `image` and `video` attributes,
unchanged. -/
theorem log_mutates_only_scalar (o : EvaluatorOutput) (gs : ℕ)
    (name pfx : String) (o' : EvaluatorOutput) (cs : List LogCall)
    (h : log o gs name pfx = .ok (o', cs)) :
    o'.image = o.image ∧ o'.video = o.video ∧
    (∀ qs : List ℚ, qs ≠ [] → o.scalar = .list (qs.map PyVal.num) →
      o'.scalar = .num (qs.sum / qs.length)) ∧
    (∀ q : ℚ, o.scalar = .num q → o'.scalar = .num q) ∧
    (∀ k : ℕ, o.scalar = .arr k → o'.scalar = .arr k) ∧
    (o.scalar = .none → o'.scalar = .none) := by
  cases hstep : logScalarStep o.scalar gs name pfx with
  | error e =>
    rw [log_eq_error o gs name pfx e hstep] at h
    exact absurd h (by simp)
  | ok p =>
    obtain ⟨w, sc⟩ := p
    have hlog := log_eq o gs name pfx w sc hstep
    rw [hlog] at h
    have ho' : o' = { o with scalar := w } := by
      have := Except.ok.inj h
      exact (congrArg Prod.fst this).symm
    subst ho'
    refine ⟨rfl, rfl, ?_, ?_, ?_, ?_⟩
    · intro qs hne hq
      rw [hq, logScalarStep_list_of_mean _ _ (npMean_map_num qs hne)
        gs name pfx] at hstep
      exact (congrArg Prod.fst (Except.ok.inj hstep)).symm
    · intro q hq
      rw [hq, logScalarStep_num q gs name pfx] at hstep
      exact (congrArg Prod.fst (Except.ok.inj hstep)).symm
    · intro k hk
      rw [hk, logScalarStep_arr k gs name pfx] at hstep
      exact (congrArg Prod.fst (Except.ok.inj hstep)).symm
    · intro hn
      rw [hn, logScalarStep_none gs name pfx] at hstep
      exact (congrArg Prod.fst (Except.ok.inj hstep)).symm

/-- Witness for C9: logging `scalar=[0.2, 0.8], image=imgA` leaves the
image in place and replaces the scalar list by its mean `0.5`. -/
theorem log_mutates_only_scalar_witness :
    ∃ o' cs, log { scalar := .list [.num (1/5), .num (4/5)], image := .arr 3 } 7 "n" "p" = .ok (o', cs) ∧
      o'.image = .arr 3 ∧ o'.video = .none ∧ o'.scalar = .num (1/2) := by
  have hm : npMean [.num (1/5), .num (4/5)] = some (1/2) := by
    have := npMean_map_num [1/5, 4/5] (by simp)
    norm_num at this
    simpa using this
  have hstep : logScalarStep (EvaluatorOutput.scalar { scalar := .list [.num (1/5), .num (4/5)], image := .arr 3 }) 7 "n" "p"
      = .ok (.num (1/2), [.scalar (.num (1/2)) 7 "n" "p"]) :=
    logScalarStep_list_of_mean _ _ hm 7 "n" "p"
  have hlog := log_eq { scalar := .list [.num (1/5), .num (4/5)], image := .arr 3 } 7 "n" "p" _ _ hstep
  refine ⟨_, _, hlog, ?_⟩
  have h := log_mutates_only_scalar _ 7 "n" "p" _ _ hlog
  refine ⟨h.1, h.2.1, ?_⟩
  have := h.2.2.1 [1/5, 4/5] (by simp) rfl
  rw [this]
  norm_num

/-- C10: constructing an `Evaluator` with a given `inter_class` flag
stores exactly that flag, and establishes no other state: the constructed
value is determined by the flag alone. -/
theorem evaluator_init_inter_class (b : Bool) :
    (Evaluator.init b).inter_class = b ∧
    Evaluator.init b = { inter_class := b } :=
  ⟨rfl, rfl⟩

end XirlEval
